import Mathlib

/-!
Shallow embedding of the document segment visualizer (src/app.py).

Modelling conventions: Python text is modelled as List Char, Python int as Int
(arbitrary precision, as in Python), a document as the list of its lines, and
the fallible resolver loop as a fuel-indexed function returning Option (none
means the loop did not finish within the given fuel).  Field names follow the
source; the Python key "end" is written end_ because end is reserved in Lean.
-/

namespace DocSegment

/-- Embeds the pydantic schema LinePairSchema (app.py lines 9-11): one
contiguous [start, end] line range. -/
structure LinePairSchema where
  start : Int
  end_ : Int
deriving DecidableEq

/-- Embeds the pydantic schema SegmentSchema (app.py lines 14-16): a named
segment with an ordered list of line pairs. -/
structure SegmentSchema where
  name : List Char
  line_pairs : List LinePairSchema
deriving DecidableEq

/-- Embeds the block dictionaries built by the resolver (app.py line 182):
one flattened (start, end, name) unit. -/
structure Block where
  start : Int
  end_ : Int
  name : List Char
deriving DecidableEq

/-- One render-unit emitted by the resolver scan: either one highlighted div
covering the line range [start, end_] with a segment name in its title
(app.py line 207), or one unhighlighted div for a single line (line 216). -/
inductive RenderUnit where
  | labeled (start end_ : Int) (name : List Char)
  | unlabeled (line : Int)
deriving DecidableEq

/-- Embeds the flattening loop (app.py lines 179-182): every line pair of
every section becomes one Block carrying its section's name, in order. -/
def flattenBlocks (sections : List SegmentSchema) : List Block :=
  sections.flatMap (fun sec => sec.line_pairs.map (fun lp => ⟨lp.start, lp.end_, sec.name⟩))

/-- The sort key of app.py line 185: ascending lexicographic (start, end). -/
def blockLE (a b : Block) : Prop :=
  a.start < b.start ∨ (a.start = b.start ∧ a.end_ ≤ b.end_)

instance : DecidableRel blockLE :=
  fun a b => inferInstanceAs (Decidable (a.start < b.start ∨ (a.start = b.start ∧ a.end_ ≤ b.end_)))

/-- Embeds blocks.sort(key=lambda x: (x["start"], x["end"])) (app.py line 185).
Python's list.sort is a stable ascending sort by the key; insertion sort with
the total preorder blockLE computes exactly that stable ordering. -/
def sortBlocks (blocks : List Block) : List Block :=
  blocks.insertionSort blockLE

/-- Embeds the selection of app.py line 192: the sub-list of blocks whose
start equals the cursor, in list order. -/
def matchingBlocks (blocks : List Block) (current_line : Int) : List Block :=
  blocks.filter (fun b => b.start == current_line)

/-- Embeds the resolver scan loop (app.py lines 190-217) as a fuel-indexed
step function.  One unit of fuel is one loop iteration; none means the loop
has not left the while condition within the given fuel.  The branch bodies
mirror the source: a matched block emits one labeled unit for
[current_line, min(end, total_lines)] and moves the cursor to that end plus
one; otherwise one unlabeled unit is emitted and the cursor advances by one. -/
def resolveFuel (blocks : List Block) (total_lines : Nat) : Nat → Int → Option (List RenderUnit)
  | 0, current_line => if current_line ≤ (total_lines : Int) then none else some []
  | fuel + 1, current_line =>
    if current_line ≤ (total_lines : Int) then
      match matchingBlocks blocks current_line with
      | [] =>
        (resolveFuel blocks total_lines fuel (current_line + 1)).map
          (fun out => RenderUnit.unlabeled current_line :: out)
      | block :: _ =>
        let end_line := min block.end_ (total_lines : Int)
        (resolveFuel blocks total_lines fuel (end_line + 1)).map
          (fun out => RenderUnit.labeled current_line end_line block.name :: out)
    else some []

/-- The whole block-resolver pass (app.py lines 179-217): flatten, sort, then
scan from line 1.  total_lines + 1 fuel covers every terminating run that
advances the cursor at least once per iteration. -/
def resolveBlocks (sections : List SegmentSchema) (total_lines : Nat) : Option (List RenderUnit) :=
  resolveFuel (sortBlocks (flattenBlocks sections)) total_lines (total_lines + 1) 1

/-- The resolver loop terminates on the given blocks and document length:
some fuel bound suffices for the while loop to exit. -/
def resolverTerminates (blocks : List Block) (total_lines : Nat) : Prop :=
  ∃ fuel, (resolveFuel blocks total_lines fuel 1).isSome

/-- The list of integers from lo to hi inclusive (empty when hi < lo). -/
def intRange (lo hi : Int) : List Int :=
  (List.range (hi + 1 - lo).toNat).map (fun k : Nat => lo + (k : Int))

/-- The line indices a render-unit covers: a labeled unit covers its whole
clamped range (app.py line 198), an unlabeled unit covers its single line. -/
def coveredLines : RenderUnit → List Int
  | RenderUnit.labeled s e _ => intRange s e
  | RenderUnit.unlabeled l => [l]

theorem intRange_eq_nil {lo hi : Int} (h : hi < lo) : intRange lo hi = [] := by
  unfold intRange
  have h0 : (hi + 1 - lo).toNat = 0 := by omega
  simp [h0]

theorem intRange_cons {lo hi : Int} (h : lo ≤ hi) : intRange lo hi = lo :: intRange (lo + 1) hi := by
  unfold intRange
  have h1 : (hi + 1 - lo).toNat = (hi + 1 - (lo + 1)).toNat + 1 := by omega
  rw [h1, List.range_succ_eq_map, List.map_cons, List.map_map]
  congr 1
  · omega
  · apply List.map_congr_left
    intro k _
    simp [Function.comp, Nat.succ_eq_add_one]
    omega

theorem intRange_append_aux {mid hi : Int} (h2 : mid ≤ hi) :
    ∀ (n : Nat) (lo : Int), lo ≤ mid + 1 → (mid + 1 - lo).toNat = n →
      intRange lo mid ++ intRange (mid + 1) hi = intRange lo hi := by
  intro n
  induction n with
  | zero =>
    intro lo h1 hn
    have hl : lo = mid + 1 := by omega
    subst hl
    rw [intRange_eq_nil (by omega)]
    simp
  | succ n ih =>
    intro lo h1 hn
    have hl : lo ≤ mid := by omega
    rw [intRange_cons hl, intRange_cons (le_trans hl h2), List.cons_append]
    congr 1
    exact ih (lo + 1) (by omega) (by omega)

theorem intRange_append {lo mid hi : Int} (h1 : lo ≤ mid + 1) (h2 : mid ≤ hi) :
    intRange lo mid ++ intRange (mid + 1) hi = intRange lo hi :=
  intRange_append_aux h2 (mid + 1 - lo).toNat lo h1 rfl

theorem mem_of_mem_matchingBlocks {blocks : List Block} {c : Int} {b : Block}
    (h : b ∈ matchingBlocks blocks c) : b ∈ blocks ∧ b.start = c := by
  unfold matchingBlocks at h
  have h2 := List.mem_filter.mp h
  exact ⟨h2.1, by simpa using h2.2⟩

/-- When every block is well-formed (start at most end), each loop iteration
advances the cursor, so the scan finishes within the remaining-line fuel bound
and its output covers exactly the lines from the cursor to the end. -/
theorem resolveFuel_covers (blocks : List Block) (total_lines : Nat)
    (hwf : ∀ b ∈ blocks, b.start ≤ b.end_) :
    ∀ (fuel : Nat) (current : Int), (total_lines : Int) + 1 ≤ current + fuel →
      ∃ out, resolveFuel blocks total_lines fuel current = some out ∧
        out.flatMap coveredLines = intRange current total_lines := by
  intro fuel
  induction fuel with
  | zero =>
    intro current hfuel
    have hc : ¬ current ≤ (total_lines : Int) := by omega
    refine ⟨[], ?_, ?_⟩
    · simp [resolveFuel, hc]
    · rw [intRange_eq_nil (by omega)]
      simp
  | succ fuel ih =>
    intro current hfuel
    by_cases hc : current ≤ (total_lines : Int)
    · cases hm : matchingBlocks blocks current with
      | nil =>
        obtain ⟨out, hout, hcov⟩ := ih (current + 1) (by omega)
        refine ⟨RenderUnit.unlabeled current :: out, ?_, ?_⟩
        · simp [resolveFuel, hc, hm, hout]
        · rw [List.flatMap_cons, hcov]
          simp only [coveredLines, List.singleton_append]
          exact (intRange_cons hc).symm
      | cons b rest =>
        have hb : b ∈ blocks ∧ b.start = current :=
          mem_of_mem_matchingBlocks (hm ▸ List.mem_cons_self b rest)
        have hbe : b.start ≤ b.end_ := hwf b hb.1
        have hce : current ≤ min b.end_ (total_lines : Int) :=
          le_min (by omega) hc
        have heN : min b.end_ (total_lines : Int) ≤ (total_lines : Int) :=
          min_le_right _ _
        obtain ⟨out, hout, hcov⟩ := ih (min b.end_ (total_lines : Int) + 1) (by omega)
        refine ⟨RenderUnit.labeled current (min b.end_ (total_lines : Int)) b.name :: out, ?_, ?_⟩
        · simp [resolveFuel, hc, hm, hout]
        · rw [List.flatMap_cons, hcov]
          exact intRange_append (by omega) (by omega)
    · refine ⟨[], ?_, ?_⟩
      · simp [resolveFuel, hc]
      · rw [intRange_eq_nil (by omega)]
        simp

theorem mem_sortBlocks {blocks : List Block} {b : Block} (h : b ∈ sortBlocks blocks) :
    b ∈ blocks :=
  (List.perm_insertionSort blockLE blocks).mem_iff.mp h

/-- Claim C1 (amended): provided every flattened block is well-formed, with
start at most end, the resolver terminates and its emitted render-units,
concatenated in order, cover the line indices exactly 1, 2, ..., N, each
exactly once with no omission and no repetition. -/
theorem claim_C1 (sections : List SegmentSchema) (total_lines : Nat)
    (hwf : ∀ b ∈ flattenBlocks sections, b.start ≤ b.end_) :
    ∃ out, resolveBlocks sections total_lines = some out ∧
      out.flatMap coveredLines = intRange 1 total_lines := by
  unfold resolveBlocks
  exact resolveFuel_covers _ total_lines
    (fun b hb => hwf b (mem_sortBlocks hb)) (total_lines + 1) 1 (by omega)

/-- Witness for claim C1 at the spec's scenario 1: nine lines, segments
Introduction (1,2), Section 1 (3,4) and (7,9), Part A (5,5), Part B (6,6). -/
theorem claim_C1_witness :
    (∀ b ∈ flattenBlocks [⟨['I'], [⟨1, 2⟩]⟩, ⟨['S'], [⟨3, 4⟩, ⟨7, 9⟩]⟩,
        ⟨['A'], [⟨5, 5⟩]⟩, ⟨['B'], [⟨6, 6⟩]⟩], b.start ≤ b.end_) ∧
    ∃ out, resolveBlocks [⟨['I'], [⟨1, 2⟩]⟩, ⟨['S'], [⟨3, 4⟩, ⟨7, 9⟩]⟩,
        ⟨['A'], [⟨5, 5⟩]⟩, ⟨['B'], [⟨6, 6⟩]⟩] 9 = some out ∧
      out.flatMap coveredLines = intRange 1 9 :=
  ⟨by decide, claim_C1 _ 9 (by decide)⟩

/-- Claim C1 counterexample: on a 4-line document, the blocks (1,3,B),
(2,9,C) and the malformed block (4,1,A) make the scan emit spans covering
lines 1,2,3 then nothing then 2,3,4 — lines 2 and 3 are rendered twice, so
the concatenated line indices are not 1,2,3,4. -/
theorem claim_C1_counterexample :
    (resolveBlocks [⟨['B'], [⟨1, 3⟩]⟩, ⟨['C'], [⟨2, 9⟩]⟩, ⟨['A'], [⟨4, 1⟩]⟩] 4).map
      (fun out => out.flatMap coveredLines) = some [1, 2, 3, 2, 3, 4] ∧
    ([1, 2, 3, 2, 3, 4] : List Int) ≠ intRange 1 4 := by
  decide

/-- Claim C2 (code bug): the malformed block (4,1,A) is not skipped silently.
When the cursor reaches line 4 the code emits an (empty) labeled render-unit
for it and resets the cursor to min(1,5)+1 = 2, after which lines 2 to 5 are
re-scanned, so block Y is emitted a second time over already-rendered lines. -/
theorem claim_C2 :
    resolveBlocks [⟨['B'], [⟨1, 3⟩]⟩, ⟨['Y'], [⟨2, 8⟩]⟩, ⟨['A'], [⟨4, 1⟩]⟩] 5 =
      some [RenderUnit.labeled 1 3 ['B'], RenderUnit.labeled 4 1 ['A'],
        RenderUnit.labeled 2 5 ['Y']] ∧
    RenderUnit.labeled 4 1 ['A'] ∈ [RenderUnit.labeled 1 3 ['B'],
      RenderUnit.labeled 4 1 ['A'], RenderUnit.labeled 2 5 ['Y']] := by
  decide

/-- Claim C3 (code bug): the scan does not always terminate.  With the single
malformed block (1,0,X) on a 1-line document, the cursor is reset from 1 to
min(0,1)+1 = 1 on every iteration, so no amount of fuel lets the while loop
exit: the resolver returns none for every fuel bound. -/
theorem claim_C3 : ∀ (fuel : Nat), resolveFuel [⟨1, 0, ['X']⟩] 1 fuel 1 = none := by
  intro fuel
  induction fuel with
  | zero => decide
  | succ fuel ih =>
    show (resolveFuel [⟨1, 0, ['X']⟩] 1 fuel 1).map
      (fun out => RenderUnit.labeled 1 0 ['X'] :: out) = none
    rw [ih]
    rfl

/-- Two blocks differ on the (start, end) sort key. -/
def blockKeyNe (a b : Block) : Prop := a.start ≠ b.start ∨ a.end_ ≠ b.end_

instance : DecidableRel blockKeyNe :=
  fun a b => inferInstanceAs (Decidable (a.start ≠ b.start ∨ a.end_ ≠ b.end_))

/-- Strict lexicographic (start, end) order, used to show a sorted list with
pairwise distinct keys is unique. -/
def blockLT (a b : Block) : Prop :=
  a.start < b.start ∨ (a.start = b.start ∧ a.end_ < b.end_)

instance : IsTotal Block blockLE :=
  ⟨fun a b => by unfold blockLE; omega⟩

instance : IsTrans Block blockLE :=
  ⟨fun a b c h1 h2 => by unfold blockLE at *; omega⟩

instance : IsAntisymm Block blockLT :=
  ⟨fun a b h1 h2 => by unfold blockLT at h1 h2; exact False.elim (by omega)⟩

theorem blockKeyNe_symm : ∀ {x y : Block}, blockKeyNe x y → blockKeyNe y x := by
  intro x y h
  unfold blockKeyNe at *
  omega

/-- A stable sort of a block multiset is unique as soon as no two blocks tie
on the (start, end) key: sorting either presentation gives the same list. -/
theorem sortBlocks_eq_of_perm {l₁ l₂ : List Block} (hp : l₁.Perm l₂)
    (hk : l₁.Pairwise blockKeyNe) : sortBlocks l₁ = sortBlocks l₂ := by
  have hperm : (sortBlocks l₁).Perm (sortBlocks l₂) :=
    ((List.perm_insertionSort blockLE l₁).trans hp).trans
      (List.perm_insertionSort blockLE l₂).symm
  have hk₁ : (sortBlocks l₁).Pairwise blockKeyNe :=
    (List.Perm.pairwise_iff blockKeyNe_symm (List.perm_insertionSort blockLE l₁)).mpr hk
  have hk₂ : (sortBlocks l₂).Pairwise blockKeyNe :=
    (List.Perm.pairwise_iff blockKeyNe_symm (List.perm_insertionSort blockLE l₂)).mpr
      ((List.Perm.pairwise_iff blockKeyNe_symm hp).mp hk)
  have himp : ∀ {a b : Block}, blockLE a b ∧ blockKeyNe a b → blockLT a b := by
    intro a b h
    unfold blockLE blockKeyNe blockLT at *
    omega
  have hlt₁ : List.Sorted blockLT (sortBlocks l₁) :=
    List.Pairwise.imp himp
      (List.pairwise_and_iff.mpr ⟨List.sorted_insertionSort blockLE l₁, hk₁⟩)
  have hlt₂ : List.Sorted blockLT (sortBlocks l₂) :=
    List.Pairwise.imp himp
      (List.pairwise_and_iff.mpr ⟨List.sorted_insertionSort blockLE l₂, hk₂⟩)
  exact List.eq_of_perm_of_sorted hperm hlt₁ hlt₂

/-- Claim C4 (amended): the resolver's output is independent of the
presentation order of Segments and LinePairs provided no two distinct
flattened blocks share the same (start, end) key; on exact (start, end) ties
the stable sort preserves presentation order, so the tie-break is not the
sole source of determinism. -/
theorem claim_C4 (sections₁ sections₂ : List SegmentSchema) (total_lines : Nat)
    (hp : (flattenBlocks sections₁).Perm (flattenBlocks sections₂))
    (hk : (flattenBlocks sections₁).Pairwise blockKeyNe) :
    resolveBlocks sections₁ total_lines = resolveBlocks sections₂ total_lines := by
  unfold resolveBlocks sortBlocks
  rw [show (flattenBlocks sections₁).insertionSort blockLE =
    (flattenBlocks sections₂).insertionSort blockLE from sortBlocks_eq_of_perm hp hk]

/-- Witness for claim C4: segments X(1,1) and Y(2,2) presented in the two
orders give the same output on a 2-line document. -/
theorem claim_C4_witness :
    (flattenBlocks [⟨['X'], [⟨1, 1⟩]⟩, ⟨['Y'], [⟨2, 2⟩]⟩]).Perm
      (flattenBlocks [⟨['Y'], [⟨2, 2⟩]⟩, ⟨['X'], [⟨1, 1⟩]⟩]) ∧
    (flattenBlocks [⟨['X'], [⟨1, 1⟩]⟩, ⟨['Y'], [⟨2, 2⟩]⟩]).Pairwise blockKeyNe ∧
    resolveBlocks [⟨['X'], [⟨1, 1⟩]⟩, ⟨['Y'], [⟨2, 2⟩]⟩] 2 =
      resolveBlocks [⟨['Y'], [⟨2, 2⟩]⟩, ⟨['X'], [⟨1, 1⟩]⟩] 2 :=
  ⟨by decide, by decide, claim_C4 _ _ 2 (by decide) (by decide)⟩

/-- Claim C4 counterexample: two segments X and Y whose blocks tie exactly on
(start, end) = (1, 1).  Presenting them in the two orders gives different
outputs on a 1-line document, so the resolver is not order-independent and
the (start, end) tie-break is not the sole source of determinism. -/
theorem claim_C4_counterexample :
    resolveBlocks [⟨['X'], [⟨1, 1⟩]⟩, ⟨['Y'], [⟨1, 1⟩]⟩] 1 =
      some [RenderUnit.labeled 1 1 ['X']] ∧
    resolveBlocks [⟨['Y'], [⟨1, 1⟩]⟩, ⟨['X'], [⟨1, 1⟩]⟩] 1 =
      some [RenderUnit.labeled 1 1 ['Y']] ∧
    (some [RenderUnit.labeled 1 1 ['X']] : Option (List RenderUnit)) ≠
      some [RenderUnit.labeled 1 1 ['Y']] := by
  decide

/-- When no block starts at or after the cursor, the rest of the scan emits
exactly one unlabeled unit per remaining line. -/
theorem resolveFuel_no_match (blocks : List Block) (total_lines : Nat) :
    ∀ (fuel : Nat) (current : Int), (∀ b ∈ blocks, b.start < current) →
      (total_lines : Int) + 1 ≤ current + fuel →
      resolveFuel blocks total_lines fuel current =
        some ((intRange current total_lines).map RenderUnit.unlabeled) := by
  intro fuel
  induction fuel with
  | zero =>
    intro current hlt hfuel
    have hc : ¬ current ≤ (total_lines : Int) := by omega
    have hnil : intRange current (total_lines : Int) = [] := intRange_eq_nil (by omega)
    simp [resolveFuel, hc, hnil]
  | succ fuel ih =>
    intro current hlt hfuel
    by_cases hc : current ≤ (total_lines : Int)
    · have hm : matchingBlocks blocks current = [] := by
        unfold matchingBlocks
        rw [List.filter_eq_nil_iff]
        intro b hb
        simp only [beq_iff_eq]
        have := hlt b hb
        omega
      have ihr := ih (current + 1) (fun b hb => by have := hlt b hb; omega) (by omega)
      simp only [resolveFuel, hc, if_true, hm, ihr, Option.map_some']
      rw [intRange_cons hc]
      simp
    · have hnil : intRange current (total_lines : Int) = [] := intRange_eq_nil (by omega)
      simp [resolveFuel, hc, hnil]

/-- The spec's scenario 2: for overlapping well-formed blocks (1,3,X) and
(1,5,Y) on a document with at least 4 lines, the sort puts (1,3,X) first, the
resolver emits Labeled(1,3,X) and then scans on from line 4 emitting only
unlabeled lines: (1,5,Y) is never selected, and the whole output is
determined. -/
theorem resolveXY_overlap (total_lines : Nat) (h : 4 ≤ total_lines) :
    resolveBlocks [⟨['X'], [⟨1, 3⟩]⟩, ⟨['Y'], [⟨1, 5⟩]⟩] total_lines =
      some (RenderUnit.labeled 1 3 ['X'] ::
        (intRange 4 total_lines).map RenderUnit.unlabeled) := by
  unfold resolveBlocks
  rw [show sortBlocks (flattenBlocks [⟨['X'], [⟨1, 3⟩]⟩, ⟨['Y'], [⟨1, 5⟩]⟩]) =
    [⟨1, 3, ['X']⟩, ⟨1, 5, ['Y']⟩] from rfl]
  have hc : (1 : Int) ≤ (total_lines : Int) := by omega
  have hm : matchingBlocks [⟨1, 3, ['X']⟩, ⟨1, 5, ['Y']⟩] 1 =
      [⟨1, 3, ['X']⟩, ⟨1, 5, ['Y']⟩] := rfl
  have hmin : min (3 : Int) (total_lines : Int) = 3 := min_eq_left (by omega)
  have hrest := resolveFuel_no_match [⟨1, 3, ['X']⟩, ⟨1, 5, ['Y']⟩] total_lines
    total_lines 4 (by decide) (by omega)
  simp only [resolveFuel, hc, if_true, hm, hmin]
  rw [show (3 : Int) + 1 = 4 from by norm_num, hrest]
  rfl

theorem mem_intRange {lo hi x : Int} : x ∈ intRange lo hi ↔ lo ≤ x ∧ x ≤ hi := by
  unfold intRange
  simp only [List.mem_map, List.mem_range]
  constructor
  · rintro ⟨k, hk, rfl⟩
    omega
  · rintro ⟨h1, h2⟩
    exact ⟨(x - lo).toNat, by omega, by omega⟩

theorem intRange_nodup (lo hi : Int) : (intRange lo hi).Nodup := by
  unfold intRange
  exact List.Nodup.map (fun a b h => by omega) (List.nodup_range _)

/-- Every labeled unit an arbitrary run emits comes from the head of the
matching-blocks sub-list at the unit's start: the first block, in the order
of the given block list, among those whose start equals the cursor. -/
theorem resolveFuel_labeled_head (blocks : List Block) (total_lines : Nat) :
    ∀ (fuel : Nat) (current : Int) (out : List RenderUnit),
      resolveFuel blocks total_lines fuel current = some out →
      ∀ (s e : Int) (nm : List Char), RenderUnit.labeled s e nm ∈ out →
        s ≤ (total_lines : Int) ∧
        ∃ b rest, matchingBlocks blocks s = b :: rest ∧ b.start = s ∧ b.name = nm ∧
          e = min b.end_ (total_lines : Int) := by
  intro fuel
  induction fuel with
  | zero =>
    intro current out hout s e nm hmem
    by_cases hc : current ≤ (total_lines : Int)
    · simp [resolveFuel, hc] at hout
    · simp [resolveFuel, hc] at hout
      subst hout
      simp at hmem
  | succ fuel ih =>
    intro current out hout s e nm hmem
    by_cases hc : current ≤ (total_lines : Int)
    · cases hm : matchingBlocks blocks current with
      | nil =>
        rw [resolveFuel] at hout
        simp only [hc, if_true, hm] at hout
        obtain ⟨out', hout', rfl⟩ := Option.map_eq_some'.mp hout
        rcases List.mem_cons.mp hmem with heq | htail
        · exact absurd heq (by simp)
        · exact ih (current + 1) out' hout' s e nm htail
      | cons b rest =>
        rw [resolveFuel] at hout
        simp only [hc, if_true, hm] at hout
        obtain ⟨out', hout', rfl⟩ := Option.map_eq_some'.mp hout
        rcases List.mem_cons.mp hmem with heq | htail
        · have hb : b ∈ blocks ∧ b.start = current :=
            mem_of_mem_matchingBlocks (hm ▸ List.mem_cons_self b rest)
          obtain ⟨h1, h2, h3⟩ := RenderUnit.labeled.inj heq
          subst h1; subst h2; subst h3
          exact ⟨hc, b, rest, hm, hb.2, rfl, rfl⟩
        · exact ih (min b.end_ (total_lines : Int) + 1) out' hout' s e nm htail
    · rw [resolveFuel] at hout
      simp only [hc, if_false] at hout
      obtain rfl : ([] : List RenderUnit) = out := Option.some.inj hout
      simp at hmem

theorem sortBlocks_pairwise (blocks : List Block) : (sortBlocks blocks).Pairwise blockLE :=
  List.sorted_insertionSort blockLE blocks

/-- In a list sorted by the (start, end) key, the head of the matching
sub-list at a start line is least in that order among all blocks with that
start line. -/
theorem matchingBlocks_head_min {blocks : List Block} (hp : blocks.Pairwise blockLE)
    {s : Int} {b : Block} {rest : List Block}
    (hm : matchingBlocks blocks s = b :: rest) :
    ∀ b' ∈ blocks, b'.start = s → blockLE b b' := by
  intro b' hb' hs
  have hmem : b' ∈ matchingBlocks blocks s := by
    unfold matchingBlocks
    exact List.mem_filter.mpr ⟨hb', by simpa using hs⟩
  rw [hm] at hmem
  rcases List.mem_cons.mp hmem with rfl | htail
  · exact Or.inr ⟨rfl, le_refl _⟩
  · have hpf : (matchingBlocks blocks s).Pairwise blockLE := hp.filter _
    rw [hm] at hpf
    exact (List.pairwise_cons.mp hpf).1 b' htail

/-- Claim C5 (amended): for every Segment set whose flattened blocks are all
well-formed (start at most end), the resolver terminates and (i) every
emitted labeled span comes from a block that is least in the ascending
(start, end) order among the blocks sharing its start line — the others at
that position are silently ignored; (ii) no emitted labeled span starts
strictly inside another emitted labeled span, so a block starting strictly
inside an already-emitted span is never selected; and (iii) in particular
for blocks (1,3,X) and (1,5,Y) on a document with at least 4 lines the
output is exactly Labeled(1,3,X) followed by the unlabeled lines 4..N, with
(1,5,Y) never selected.  Without well-formedness, clause (ii) fails (see the
counterexample). -/
theorem claim_C5 (sections : List SegmentSchema) (total_lines : Nat)
    (hwf : ∀ b ∈ flattenBlocks sections, b.start ≤ b.end_) :
    ∃ out, resolveBlocks sections total_lines = some out ∧
      (∀ (s e : Int) (nm : List Char), RenderUnit.labeled s e nm ∈ out →
        ∃ b ∈ flattenBlocks sections, b.start = s ∧ b.name = nm ∧
          e = min b.end_ (total_lines : Int) ∧
          ∀ b' ∈ flattenBlocks sections, b'.start = s → blockLE b b') ∧
      (∀ (s e : Int) (nm : List Char), RenderUnit.labeled s e nm ∈ out →
        ∀ (s' e' : Int) (nm' : List Char), RenderUnit.labeled s' e' nm' ∈ out →
          s < s' → s' ≤ e → False) ∧
      (4 ≤ total_lines →
        resolveBlocks [⟨['X'], [⟨1, 3⟩]⟩, ⟨['Y'], [⟨1, 5⟩]⟩] total_lines =
          some (RenderUnit.labeled 1 3 ['X'] ::
            (intRange 4 total_lines).map RenderUnit.unlabeled)) := by
  have hwfs : ∀ b ∈ sortBlocks (flattenBlocks sections), b.start ≤ b.end_ :=
    fun b hb => hwf b (mem_sortBlocks hb)
  obtain ⟨out, hout, hcov⟩ :=
    resolveFuel_covers _ total_lines hwfs (total_lines + 1) 1 (by omega)
  have hperm := List.perm_insertionSort blockLE (flattenBlocks sections)
  refine ⟨out, hout, ?_, ?_, fun h4 => resolveXY_overlap total_lines h4⟩
  · intro s e nm hmem
    obtain ⟨hsN, b, rest, hm, hbs, hbn, hbe⟩ :=
      resolveFuel_labeled_head _ total_lines (total_lines + 1) 1 out hout s e nm hmem
    have hbmem : b ∈ sortBlocks (flattenBlocks sections) :=
      (mem_of_mem_matchingBlocks (hm ▸ List.mem_cons_self b rest)).1
    refine ⟨b, hperm.mem_iff.mp hbmem, hbs, hbn, hbe, ?_⟩
    intro b' hb' hs'
    exact matchingBlocks_head_min (sortBlocks_pairwise _) hm b'
      (hperm.mem_iff.mpr hb') hs'
  · intro s e nm hmem s' e' nm' hmem' hlt hle
    obtain ⟨hsN, b1, r1, hm1, hb1s, hb1n, hb1e⟩ :=
      resolveFuel_labeled_head _ total_lines (total_lines + 1) 1 out hout s e nm hmem
    obtain ⟨hs'N, b2, r2, hm2, hb2s, hb2n, hb2e⟩ :=
      resolveFuel_labeled_head _ total_lines (total_lines + 1) 1 out hout s' e' nm' hmem'
    have hb2mem : b2 ∈ sortBlocks (flattenBlocks sections) :=
      (mem_of_mem_matchingBlocks (hm2 ▸ List.mem_cons_self b2 r2)).1
    have hb2wf : b2.start ≤ b2.end_ := hwfs b2 hb2mem
    have heN : e ≤ (total_lines : Int) := hb1e ▸ min_le_right _ _
    have he' : s' ≤ e' := hb2e ▸ le_min (by omega) (by omega)
    have hnodup : (out.flatMap coveredLines).Nodup := by
      rw [hcov]
      exact intRange_nodup 1 total_lines
    have hpw : out.Pairwise (fun u₁ u₂ => (coveredLines u₁).Disjoint (coveredLines u₂)) :=
      (List.nodup_flatMap.mp hnodup).2
    have hneq : RenderUnit.labeled s e nm ≠ RenderUnit.labeled s' e' nm' := by
      intro hEq
      obtain ⟨h1, h2, h3⟩ := RenderUnit.labeled.inj hEq
      omega
    have hdisj := hpw.forall (fun u v h => h.symm) hmem hmem' hneq
    exact hdisj (show s' ∈ intRange s e from mem_intRange.mpr ⟨by omega, hle⟩)
      (show s' ∈ intRange s' e' from mem_intRange.mpr ⟨le_refl _, he'⟩)

/-- Witness for claim C5 at the scenario-2 Segment set X(1,3), Y(1,5) on a
9-line document. -/
theorem claim_C5_witness :
    (∀ b ∈ flattenBlocks [⟨['X'], [⟨1, 3⟩]⟩, ⟨['Y'], [⟨1, 5⟩]⟩], b.start ≤ b.end_) ∧
    ∃ out, resolveBlocks [⟨['X'], [⟨1, 3⟩]⟩, ⟨['Y'], [⟨1, 5⟩]⟩] 9 = some out ∧
      (∀ (s e : Int) (nm : List Char), RenderUnit.labeled s e nm ∈ out →
        ∃ b ∈ flattenBlocks [⟨['X'], [⟨1, 3⟩]⟩, ⟨['Y'], [⟨1, 5⟩]⟩], b.start = s ∧
          b.name = nm ∧ e = min b.end_ ((9 : Nat) : Int) ∧
          ∀ b' ∈ flattenBlocks [⟨['X'], [⟨1, 3⟩]⟩, ⟨['Y'], [⟨1, 5⟩]⟩],
            b'.start = s → blockLE b b') ∧
      (∀ (s e : Int) (nm : List Char), RenderUnit.labeled s e nm ∈ out →
        ∀ (s' e' : Int) (nm' : List Char), RenderUnit.labeled s' e' nm' ∈ out →
          s < s' → s' ≤ e → False) ∧
      (4 ≤ 9 →
        resolveBlocks [⟨['X'], [⟨1, 3⟩]⟩, ⟨['Y'], [⟨1, 5⟩]⟩] 9 =
          some (RenderUnit.labeled 1 3 ['X'] ::
            (intRange 4 (9 : Nat)).map RenderUnit.unlabeled)) :=
  ⟨by decide, claim_C5 [⟨['X'], [⟨1, 3⟩]⟩, ⟨['Y'], [⟨1, 5⟩]⟩] 9 (by decide)⟩

/-- Claim C5 counterexample: the sub-claim that a block whose start lies
strictly inside an already-emitted labeled span is never selected fails.
After Labeled(1,3,B) is emitted, the malformed block (4,1,A) resets the
cursor to 2, and block (2,7,C) — whose start 2 lies strictly inside the
already-emitted span [1,3] — is then selected and emitted. -/
theorem claim_C5_counterexample :
    resolveBlocks [⟨['B'], [⟨1, 3⟩]⟩, ⟨['C'], [⟨2, 7⟩]⟩, ⟨['A'], [⟨4, 1⟩]⟩] 4 =
      some [RenderUnit.labeled 1 3 ['B'], RenderUnit.labeled 4 1 ['A'],
        RenderUnit.labeled 2 4 ['C']] ∧
    RenderUnit.labeled 2 4 ['C'] ∈ [RenderUnit.labeled 1 3 ['B'],
      RenderUnit.labeled 4 1 ['A'], RenderUnit.labeled 2 4 ['C']] := by
  decide

/-- Every labeled unit an arbitrary run emits starts at a cursor position at
most N and gets its end clamped to min(end, N) from a block of the list whose
start is that position. -/
theorem resolveFuel_labeled_sound (blocks : List Block) (total_lines : Nat) :
    ∀ (fuel : Nat) (current : Int) (out : List RenderUnit),
      resolveFuel blocks total_lines fuel current = some out →
      ∀ (s e : Int) (nm : List Char), RenderUnit.labeled s e nm ∈ out →
        s ≤ (total_lines : Int) ∧
          ∃ b ∈ blocks, b.start = s ∧ b.name = nm ∧ e = min b.end_ (total_lines : Int) := by
  intro fuel
  induction fuel with
  | zero =>
    intro current out hout s e nm hmem
    by_cases hc : current ≤ (total_lines : Int)
    · simp [resolveFuel, hc] at hout
    · simp [resolveFuel, hc] at hout
      subst hout
      simp at hmem
  | succ fuel ih =>
    intro current out hout s e nm hmem
    by_cases hc : current ≤ (total_lines : Int)
    · cases hm : matchingBlocks blocks current with
      | nil =>
        rw [resolveFuel] at hout
        simp only [hc, if_true, hm] at hout
        obtain ⟨out', hout', rfl⟩ := Option.map_eq_some'.mp hout
        rcases List.mem_cons.mp hmem with heq | htail
        · exact absurd heq (by simp)
        · exact ih (current + 1) out' hout' s e nm htail
      | cons b rest =>
        rw [resolveFuel] at hout
        simp only [hc, if_true, hm] at hout
        obtain ⟨out', hout', rfl⟩ := Option.map_eq_some'.mp hout
        rcases List.mem_cons.mp hmem with heq | htail
        · have hb : b ∈ blocks ∧ b.start = current :=
            mem_of_mem_matchingBlocks (hm ▸ List.mem_cons_self b rest)
          obtain ⟨h1, h2, h3⟩ := RenderUnit.labeled.inj heq
          subst h1; subst h2; subst h3
          exact ⟨hc, b, hb.1, hb.2, rfl, rfl⟩
        · exact ih (min b.end_ (total_lines : Int) + 1) out' hout' s e nm htail
    · rw [resolveFuel] at hout
      simp only [hc, if_false] at hout
      obtain rfl : ([] : List RenderUnit) = out := Option.some.inj hout
      simp at hmem

/-- Claim C6: in any run of the resolver scan, every emitted labeled span
comes from a block of the list whose start is the span's start, its end is
clamped to min(block end, N) — hence equals N whenever the block's end
exceeds N — and its start is at most N, so a block with start beyond N is
never selected and yields no render-unit. -/
theorem claim_C6 (blocks : List Block) (total_lines fuel : Nat)
    (out : List RenderUnit)
    (hrun : resolveFuel blocks total_lines fuel 1 = some out)
    (s e : Int) (nm : List Char) (hmem : RenderUnit.labeled s e nm ∈ out) :
    s ≤ (total_lines : Int) ∧ e ≤ (total_lines : Int) ∧
      ∃ b ∈ blocks, b.start = s ∧ b.name = nm ∧
        e = min b.end_ (total_lines : Int) ∧
        (b.end_ > (total_lines : Int) → e = (total_lines : Int)) := by
  obtain ⟨hs, b, hb, hstart, hname, hmin⟩ :=
    resolveFuel_labeled_sound blocks total_lines fuel 1 out hrun s e nm hmem
  refine ⟨hs, ?_, b, hb, hstart, hname, hmin, ?_⟩
  · rw [hmin]; exact min_le_right _ _
  · intro hgt
    rw [hmin]
    exact min_eq_right (by omega)

/-- Witness for claim C6 at the spec's scenario 4: block (5,100,n) on a
9-line document is clamped to the labeled span (5,9). -/
theorem claim_C6_witness :
    resolveFuel [⟨5, 100, ['n']⟩] 9 10 1 =
      some [RenderUnit.unlabeled 1, RenderUnit.unlabeled 2, RenderUnit.unlabeled 3,
        RenderUnit.unlabeled 4, RenderUnit.labeled 5 9 ['n']] ∧
    RenderUnit.labeled 5 9 ['n'] ∈ [RenderUnit.unlabeled 1, RenderUnit.unlabeled 2,
      RenderUnit.unlabeled 3, RenderUnit.unlabeled 4, RenderUnit.labeled 5 9 ['n']] ∧
    ((5 : Int) ≤ (9 : Nat) ∧ (9 : Int) ≤ (9 : Nat) ∧
      ∃ b ∈ [(⟨5, 100, ['n']⟩ : Block)], b.start = 5 ∧ b.name = ['n'] ∧
        (9 : Int) = min b.end_ ((9 : Nat) : Int) ∧
        (b.end_ > ((9 : Nat) : Int) → (9 : Int) = ((9 : Nat) : Int))) :=
  ⟨by decide, by decide,
    claim_C6 [⟨5, 100, ['n']⟩] 9 10
      [RenderUnit.unlabeled 1, RenderUnit.unlabeled 2, RenderUnit.unlabeled 3,
        RenderUnit.unlabeled 4, RenderUnit.labeled 5 9 ['n']]
      (by decide) 5 9 ['n'] (by decide)⟩

/-- Claim C9: when two blocks tie exactly on (start, end) but carry different
segment names, the stable sort keeps them in flattened order and the resolver
selects whichever segment was presented first, so the selected name depends
on the presentation order of the segments. -/
theorem claim_C9 (n₁ n₂ : List Char) :
    resolveBlocks [⟨n₁, [⟨1, 1⟩]⟩, ⟨n₂, [⟨1, 1⟩]⟩] 1 =
      some [RenderUnit.labeled 1 1 n₁] ∧
    resolveBlocks [⟨n₂, [⟨1, 1⟩]⟩, ⟨n₁, [⟨1, 1⟩]⟩] 1 =
      some [RenderUnit.labeled 1 1 n₂] :=
  ⟨rfl, rfl⟩

/-- Python whitespace as tested by str.strip on the text handled here:
space, tab, newline, carriage return, vertical tab, form feed. -/
def isPySpace (c : Char) : Bool :=
  c == ' ' || c == '\t' || c == '\n' || c == '\r' || c == '\x0b' || c == '\x0c'

/-- Embeds Python str.strip(): drop leading and trailing whitespace. -/
def pyStrip (s : List Char) : List Char :=
  ((s.dropWhile isPySpace).reverse.dropWhile isPySpace).reverse

/-- Embeds Python str.replace for a one-character needle: every occurrence is
replaced, left to right. -/
def pyReplaceChar (s : List Char) (old : Char) (new : List Char) : List Char :=
  match s with
  | [] => []
  | c :: rest => (if c = old then new else [c]) ++ pyReplaceChar rest old new

/-- Embeds app.py lines 200-204 (and the identical lines 211-215): escape the
ampersand first, then the two angle brackets. -/
def escapeHtml (line_text : List Char) : List Char :=
  pyReplaceChar (pyReplaceChar (pyReplaceChar line_text '&' ['&', 'a', 'm', 'p', ';'])
    '<' ['&', 'l', 't', ';']) '>' ['&', 'g', 't', ';']

/-- The per-line text the renderer puts in a div (app.py lines 205 and 216):
the escaped line, or a single space when the escaped line strips to empty. -/
def renderedLineText (line_text : List Char) : List Char :=
  if pyStrip (escapeHtml line_text) = [] then [' '] else escapeHtml line_text

/-- The image of one character under the renderer's escaping. -/
def encChar (c : Char) : List Char :=
  if c = '&' then ['&', 'a', 'm', 'p', ';']
  else if c = '<' then ['&', 'l', 't', ';']
  else if c = '>' then ['&', 'g', 't', ';']
  else [c]

/-- Modelled from the spec: a standard markup-entity decoder restricted to
the three entities the renderer introduces (the decoder itself is external to
src/app.py).  It scans left to right, decodes amp, lt and gt entities, and
copies every other character unchanged. -/
def unescapeML : List Char → List Char
  | [] => []
  | c :: rest =>
    if c = '&' ∧ rest.take 4 = ['a', 'm', 'p', ';'] then '&' :: unescapeML (rest.drop 4)
    else if c = '&' ∧ rest.take 3 = ['l', 't', ';'] then '<' :: unescapeML (rest.drop 3)
    else if c = '&' ∧ rest.take 3 = ['g', 't', ';'] then '>' :: unescapeML (rest.drop 3)
    else c :: unescapeML rest
termination_by s => s.length
decreasing_by all_goals (simp <;> omega)

theorem unescapeML_amp (t : List Char) :
    unescapeML ('&' :: 'a' :: 'm' :: 'p' :: ';' :: t) = '&' :: unescapeML t := by
  simp [unescapeML]

theorem unescapeML_lt (t : List Char) :
    unescapeML ('&' :: 'l' :: 't' :: ';' :: t) = '<' :: unescapeML t := by
  simp [unescapeML]

theorem unescapeML_gt (t : List Char) :
    unescapeML ('&' :: 'g' :: 't' :: ';' :: t) = '>' :: unescapeML t := by
  simp [unescapeML]

theorem unescapeML_cons_ne (c : Char) (hc : c ≠ '&') (t : List Char) :
    unescapeML (c :: t) = c :: unescapeML t := by
  simp [unescapeML, hc]

theorem pyReplaceChar_append (old : Char) (new a b : List Char) :
    pyReplaceChar (a ++ b) old new = pyReplaceChar a old new ++ pyReplaceChar b old new := by
  induction a with
  | nil => rfl
  | cons c a ih => simp [pyReplaceChar, ih]

theorem escapeHtml_append (a b : List Char) :
    escapeHtml (a ++ b) = escapeHtml a ++ escapeHtml b := by
  simp [escapeHtml, pyReplaceChar_append]

theorem escapeHtml_single (c : Char) : escapeHtml [c] = encChar c := by
  by_cases h1 : c = '&'
  · subst h1; rfl
  · by_cases h2 : c = '<'
    · subst h2; rfl
    · by_cases h3 : c = '>'
      · subst h3; rfl
      · simp [escapeHtml, pyReplaceChar, encChar, h1, h2, h3]

theorem escapeHtml_cons (c : Char) (s : List Char) :
    escapeHtml (c :: s) = encChar c ++ escapeHtml s := by
  rw [show (c :: s) = [c] ++ s from rfl, escapeHtml_append, escapeHtml_single]

/-- Decoding is a left inverse of the renderer's escaping on every text. -/
theorem unescapeML_escapeHtml (s : List Char) : unescapeML (escapeHtml s) = s := by
  induction s with
  | nil => simp [escapeHtml, pyReplaceChar, unescapeML]
  | cons c s ih =>
    rw [escapeHtml_cons]
    by_cases h1 : c = '&'
    · subst h1
      rw [show encChar ('&') = ['&', 'a', 'm', 'p', ';'] from rfl, List.cons_append,
        List.cons_append, List.cons_append, List.cons_append, List.cons_append,
        List.nil_append, unescapeML_amp, ih]
    · by_cases h2 : c = '<'
      · subst h2
        rw [show encChar ('<') = ['&', 'l', 't', ';'] from rfl, List.cons_append,
          List.cons_append, List.cons_append, List.cons_append, List.nil_append,
          unescapeML_lt, ih]
      · by_cases h3 : c = '>'
        · subst h3
          rw [show encChar ('>') = ['&', 'g', 't', ';'] from rfl, List.cons_append,
            List.cons_append, List.cons_append, List.cons_append, List.nil_append,
            unescapeML_gt, ih]
        · rw [show encChar c = [c] from by simp [encChar, h1, h2, h3],
            List.cons_append, List.nil_append, unescapeML_cons_ne c h1, ih]

theorem mem_dropWhile (p : Char → Bool) (c : Char) (hc : p c = false) :
    ∀ s : List Char, c ∈ s → c ∈ s.dropWhile p := by
  intro s
  induction s with
  | nil => simp
  | cons a t ih =>
    intro hmem
    by_cases ha : p a
    · rw [List.dropWhile_cons_of_pos ha]
      rcases List.mem_cons.mp hmem with rfl | h
      · rw [hc] at ha; exact absurd ha (by simp)
      · exact ih h
    · rw [List.dropWhile_cons_of_neg ha]
      exact hmem

theorem pyStrip_ne_nil {s : List Char} {c : Char} (hmem : c ∈ s)
    (hc : isPySpace c = false) : pyStrip s ≠ [] := by
  unfold pyStrip
  intro h
  have h1 : c ∈ s.dropWhile isPySpace := mem_dropWhile _ c hc s hmem
  have h2 : c ∈ (s.dropWhile isPySpace).reverse := List.mem_reverse.mpr h1
  have h3 : c ∈ (s.dropWhile isPySpace).reverse.dropWhile isPySpace :=
    mem_dropWhile _ c hc _ h2
  have h4 := List.mem_reverse.mpr h3
  rw [h] at h4
  simp at h4

theorem amp_mem_escapeHtml {s : List Char} {c : Char} (hmem : c ∈ s)
    (hc : c = '&' ∨ c = '<' ∨ c = '>') : '&' ∈ escapeHtml s := by
  have hin : '&' ∈ encChar c := by
    rcases hc with rfl | rfl | rfl <;> decide
  induction s with
  | nil => simp at hmem
  | cons a t ih =>
    rw [escapeHtml_cons]
    rcases List.mem_cons.mp hmem with rfl | h
    · exact List.mem_append.mpr (Or.inl hin)
    · exact List.mem_append.mpr (Or.inr (ih h))

/-- Claim C7: the renderer escapes ampersand first, then the angle brackets;
for any line text containing an ampersand or an angle bracket, the rendered
text decodes back to the original line text under a standard markup-entity
decoder. -/
theorem claim_C7 (line_text : List Char)
    (h : '&' ∈ line_text ∨ '<' ∈ line_text ∨ '>' ∈ line_text) :
    unescapeML (renderedLineText line_text) = line_text := by
  have hamp : '&' ∈ escapeHtml line_text := by
    rcases h with h | h | h
    · exact amp_mem_escapeHtml h (Or.inl rfl)
    · exact amp_mem_escapeHtml h (Or.inr (Or.inl rfl))
    · exact amp_mem_escapeHtml h (Or.inr (Or.inr rfl))
  have hne : pyStrip (escapeHtml line_text) ≠ [] := pyStrip_ne_nil hamp (by decide)
  rw [renderedLineText, if_neg hne]
  exact unescapeML_escapeHtml line_text

/-- Witness for claim C7 on a line mixing all three special characters. -/
theorem claim_C7_witness :
    ('&' ∈ ['a', '&', 'b', '<', 'c', '>'] ∨ '<' ∈ ['a', '&', 'b', '<', 'c', '>'] ∨
      '>' ∈ ['a', '&', 'b', '<', 'c', '>']) ∧
    unescapeML (renderedLineText ['a', '&', 'b', '<', 'c', '>']) =
      ['a', '&', 'b', '<', 'c', '>'] :=
  ⟨by decide, claim_C7 _ (by decide)⟩

/-- The line boundary characters of Python str.splitlines. -/
def isLineBreak (c : Char) : Bool :=
  c == '\n' || c == '\r' || c == '\x0b' || c == '\x0c' ||
    c == '\x1c' || c == '\x1d' || c == '\x1e' || c == '\x85' ||
    c == '\u2028' || c == '\u2029'

/-- Embeds Python str.splitlines, character by character: acc holds the
current line so far in reverse; skipNl records that the previous character
was a carriage return, so one immediately following newline belongs to the
same boundary and is swallowed.  A trailing fragment is emitted only when
nonempty: a trailing line break produces no phantom final line. -/
def pySplitlinesAux (skipNl : Bool) (acc : List Char) : List Char → List (List Char)
  | [] => if acc.isEmpty then [] else [acc.reverse]
  | c :: rest =>
    if skipNl ∧ c = '\n' then pySplitlinesAux false acc rest
    else if c = '\r' then acc.reverse :: pySplitlinesAux true [] rest
    else if isLineBreak c then acc.reverse :: pySplitlinesAux false [] rest
    else pySplitlinesAux false (c :: acc) rest

/-- Embeds text.splitlines() (app.py line 98). -/
def pySplitlines (text : List Char) : List (List Char) :=
  pySplitlinesAux false [] text

/-- The decimal digit characters, 48 being the code of the zero digit. -/
def digitChar (d : Nat) : Char := Char.ofNat (48 + d)

def natToDigitsAux : Nat → Nat → List Char
  | 0, _ => []
  | fuel + 1, n =>
    if n < 10 then [digitChar n]
    else natToDigitsAux fuel (n / 10) ++ [digitChar (n % 10)]

/-- The decimal digits of n, most significant first, as Python str formats a
nonnegative int inside an f-string. -/
def natToDigits (n : Nat) : List Char := natToDigitsAux (n + 1) n

/-- Embeds the f-string of app.py line 101: double angle marker around the
1-based index, then one space, then the raw line. -/
def numberLine (count : Nat) (line : List Char) : List Char :=
  '<' :: '<' :: (natToDigits count ++ ('>' :: '>' :: ' ' :: line))

/-- Embeds the enumerate(lines, 1) loop of app.py lines 99-101. -/
def numberedLinesFrom : Nat → List (List Char) → List (List Char)
  | _, [] => []
  | count, line :: rest => numberLine count line :: numberedLinesFrom (count + 1) rest

/-- Embeds the Python join on a newline separator (app.py line 102). -/
def joinNl : List (List Char) → List Char
  | [] => []
  | [l] => l
  | l :: l2 :: rest => l ++ '\n' :: joinNl (l2 :: rest)

/-- Embeds add_line_numbers_to_str (app.py lines 97-102): the numbered text
joined by newlines, paired with the raw split lines. -/
def add_line_numbers_to_str (text : List Char) : List Char × List (List Char) :=
  (joinNl (numberedLinesFrom 1 (pySplitlines text)), pySplitlines text)

/-- Splitting a text on the newline character; the inverse view used to read
individual lines back out of the joined numbered text. -/
def splitOnNl : List Char → List (List Char)
  | [] => [[]]
  | c :: rest =>
    if c = '\n' then [] :: splitOnNl rest
    else
      match splitOnNl rest with
      | [] => [[c]]
      | l :: ls => (c :: l) :: ls

theorem pySplitlinesAux_no_break :
    ∀ (s : List Char) (skipNl : Bool) (acc : List Char),
      (∀ c ∈ acc, isLineBreak c = false) →
      ∀ l ∈ pySplitlinesAux skipNl acc s, ∀ c ∈ l, isLineBreak c = false := by
  intro s
  induction s with
  | nil =>
    intro skipNl acc hacc l hl c hc
    rw [pySplitlinesAux] at hl
    by_cases he : acc.isEmpty
    · rw [if_pos he] at hl
      simp at hl
    · rw [if_neg he] at hl
      simp at hl
      subst hl
      exact hacc c (List.mem_reverse.mp hc)
  | cons a rest ih =>
    intro skipNl acc hacc l hl
    rw [pySplitlinesAux] at hl
    by_cases h1 : skipNl ∧ a = '\n'
    · rw [if_pos h1] at hl
      exact ih false acc hacc l hl
    · rw [if_neg h1] at hl
      by_cases h2 : a = '\r'
      · rw [if_pos h2] at hl
        rcases List.mem_cons.mp hl with rfl | htail
        · intro c hc
          exact hacc c (List.mem_reverse.mp hc)
        · exact ih true [] (by simp) l htail
      · rw [if_neg h2] at hl
        by_cases h3 : isLineBreak a
        · rw [if_pos h3] at hl
          rcases List.mem_cons.mp hl with rfl | htail
          · intro c hc
            exact hacc c (List.mem_reverse.mp hc)
          · exact ih false [] (by simp) l htail
        · rw [if_neg h3] at hl
          refine ih false (a :: acc) ?_ l hl
          intro c hc
          rcases List.mem_cons.mp hc with rfl | hc2
          · exact Bool.not_eq_true _ ▸ (by simpa using h3)
          · exact hacc c hc2

theorem digitChar_not_break {d : Nat} (hd : d < 10) : isLineBreak (digitChar d) = false := by
  interval_cases d <;> decide

theorem natToDigitsAux_not_break :
    ∀ (fuel n : Nat), ∀ c ∈ natToDigitsAux fuel n, isLineBreak c = false := by
  intro fuel
  induction fuel with
  | zero =>
    intro n c hc
    simp [natToDigitsAux] at hc
  | succ fuel ih =>
    intro n c hc
    rw [natToDigitsAux] at hc
    by_cases h : n < 10
    · rw [if_pos h] at hc
      simp at hc
      subst hc
      exact digitChar_not_break h
    · rw [if_neg h] at hc
      rcases List.mem_append.mp hc with h1 | h2
      · exact ih _ c h1
      · simp at h2
        subst h2
        exact digitChar_not_break (Nat.mod_lt _ (by norm_num))

theorem numberLine_no_nl (count : Nat) (line : List Char)
    (hline : ∀ c ∈ line, isLineBreak c = false) :
    ∀ c ∈ numberLine count line, c ≠ '\n' := by
  intro c hc hnl
  subst hnl
  have hbrk : isLineBreak '\n' = false := by
    unfold numberLine at hc
    rcases List.mem_cons.mp hc with h | hc
    · exact absurd h (by decide)
    rcases List.mem_cons.mp hc with h | hc
    · exact absurd h (by decide)
    rcases List.mem_append.mp hc with h | hc
    · exact natToDigitsAux_not_break _ _ _ h
    rcases List.mem_cons.mp hc with h | hc
    · exact absurd h (by decide)
    rcases List.mem_cons.mp hc with h | hc
    · exact absurd h (by decide)
    rcases List.mem_cons.mp hc with h | hc
    · exact absurd h (by decide)
    · exact hline _ hc
  exact absurd hbrk (by decide)

theorem numberedLinesFrom_no_nl :
    ∀ (lines : List (List Char)), (∀ l ∈ lines, ∀ c ∈ l, isLineBreak c = false) →
      ∀ (i : Nat), ∀ l ∈ numberedLinesFrom i lines, ∀ c ∈ l, c ≠ '\n' := by
  intro lines
  induction lines with
  | nil =>
    intro _ i l hl
    simp [numberedLinesFrom] at hl
  | cons a rest ih =>
    intro hno i l hl
    rw [numberedLinesFrom] at hl
    rcases List.mem_cons.mp hl with rfl | htail
    · exact numberLine_no_nl i a (hno a (List.mem_cons_self a rest))
    · exact ih (fun l' hl' => hno l' (List.mem_cons_of_mem a hl')) (i + 1) l htail

theorem numberedLinesFrom_length :
    ∀ (lines : List (List Char)) (i : Nat),
      (numberedLinesFrom i lines).length = lines.length := by
  intro lines
  induction lines with
  | nil => intro i; rfl
  | cons a rest ih => intro i; simp [numberedLinesFrom, ih]

theorem numberedLinesFrom_getElem? :
    ∀ (lines : List (List Char)) (i k : Nat),
      (numberedLinesFrom i lines)[k]? = (lines[k]?).map (fun l => numberLine (i + k) l) := by
  intro lines
  induction lines with
  | nil => intro i k; simp [numberedLinesFrom]
  | cons a rest ih =>
    intro i k
    cases k with
    | zero => simp [numberedLinesFrom]
    | succ k =>
      rw [numberedLinesFrom]
      rw [List.getElem?_cons_succ, List.getElem?_cons_succ, ih (i + 1) k]
      have : i + 1 + k = i + (k + 1) := by omega
      rw [this]

theorem splitOnNl_no_nl {a : List Char} (h : ∀ c ∈ a, c ≠ '\n') : splitOnNl a = [a] := by
  induction a with
  | nil => rfl
  | cons c rest ih =>
    rw [splitOnNl, if_neg (h c (List.mem_cons_self c rest)),
      ih (fun d hd => h d (List.mem_cons_of_mem c hd))]

theorem splitOnNl_append_nl {a : List Char} (h : ∀ c ∈ a, c ≠ '\n') (t : List Char) :
    splitOnNl (a ++ '\n' :: t) = a :: splitOnNl t := by
  induction a with
  | nil => simp [splitOnNl]
  | cons c rest ih =>
    rw [List.cons_append, splitOnNl, if_neg (h c (List.mem_cons_self c rest)),
      ih (fun d hd => h d (List.mem_cons_of_mem c hd))]

theorem splitOnNl_joinNl :
    ∀ (L : List (List Char)), L ≠ [] → (∀ l ∈ L, ∀ c ∈ l, c ≠ '\n') →
      splitOnNl (joinNl L) = L := by
  intro L
  induction L with
  | nil => intro h; exact absurd rfl h
  | cons l rest ih =>
    intro _ hno
    cases rest with
    | nil => exact splitOnNl_no_nl (hno l (List.mem_cons_self l []))
    | cons l2 rest2 =>
      rw [show joinNl (l :: l2 :: rest2) = l ++ '\n' :: joinNl (l2 :: rest2) from rfl,
        splitOnNl_append_nl (hno l (List.mem_cons_self l (l2 :: rest2))),
        ih (by simp) (fun l' hl' => hno l' (List.mem_cons_of_mem l hl'))]

/-- Claim C8: the numbered text and the returned lines array index
identically.  Splitting the numbered text back on newlines yields exactly one
line per raw line — a trailing newline in the input adds no phantom line
beyond what splitlines yields — and line i of the numbered text is the
1-based double angle marker followed by one space and the raw content of
line i of the lines array. -/
theorem claim_C8 (text : List Char) (h : (add_line_numbers_to_str text).2 ≠ []) :
    (splitOnNl (add_line_numbers_to_str text).1).length =
      (add_line_numbers_to_str text).2.length ∧
    ∀ i : Nat, (splitOnNl (add_line_numbers_to_str text).1)[i]? =
      ((add_line_numbers_to_str text).2[i]?).map (fun l => numberLine (i + 1) l) := by
  have hlines : ∀ l ∈ pySplitlines text, ∀ c ∈ l, isLineBreak c = false :=
    fun l hl => pySplitlinesAux_no_break text false [] (by simp) l hl
  have hne : numberedLinesFrom 1 (pySplitlines text) ≠ [] := by
    have h2 : pySplitlines text ≠ [] := h
    cases hcase : pySplitlines text with
    | nil => exact absurd hcase h2
    | cons a rest => rw [numberedLinesFrom]; simp
  have hsplit : splitOnNl (joinNl (numberedLinesFrom 1 (pySplitlines text))) =
      numberedLinesFrom 1 (pySplitlines text) :=
    splitOnNl_joinNl _ hne (numberedLinesFrom_no_nl (pySplitlines text) hlines 1)
  constructor
  · show (splitOnNl (joinNl (numberedLinesFrom 1 (pySplitlines text)))).length = _
    rw [hsplit]
    exact numberedLinesFrom_length (pySplitlines text) 1
  · intro i
    show (splitOnNl (joinNl (numberedLinesFrom 1 (pySplitlines text))))[i]? = _
    rw [hsplit, numberedLinesFrom_getElem? (pySplitlines text) 1 i,
      show 1 + i = i + 1 from by omega]
    rfl

/-- Witness for claim C8 on a two-line text with a trailing newline. -/
theorem claim_C8_witness :
    (add_line_numbers_to_str ['a', '\n', 'b', '\n']).2 ≠ [] ∧
    ((splitOnNl (add_line_numbers_to_str ['a', '\n', 'b', '\n']).1).length =
      (add_line_numbers_to_str ['a', '\n', 'b', '\n']).2.length ∧
    ∀ i : Nat, (splitOnNl (add_line_numbers_to_str ['a', '\n', 'b', '\n']).1)[i]? =
      ((add_line_numbers_to_str ['a', '\n', 'b', '\n']).2[i]?).map
        (fun l => numberLine (i + 1) l)) :=
  ⟨by decide, claim_C8 _ (by decide)⟩

/-- Embeds the labeled div f-string of app.py line 207: the segment name is
interpolated as-is into the title attribute between the fixed opening text
and the closing quote and angle; the block content follows, then the closing
tag. -/
def labeledDivHtml (name block_content : List Char) : List Char :=
  ("<div class=\"segment-block highlighted\" title=\"Segment: ").data ++
    (name ++ (('"' :: '>' :: []) ++ (block_content ++ ("</div>").data)))

/-- Claim C10: the renderer inserts the segment name verbatim into the
labeled div's title attribute — unlike line content, which passes through
escapeHtml via renderedLineText, the name is never escaped, so a name
containing ampersands, angle brackets or double quotes appears unchanged in
the display output. -/
theorem claim_C10 (name block_content : List Char) :
    name <:+: labeledDivHtml name block_content :=
  ⟨("<div class=\"segment-block highlighted\" title=\"Segment: ").data,
    ('"' :: '>' :: []) ++ (block_content ++ ("</div>").data),
    by simp [labeledDivHtml]⟩

end DocSegment
